import Mathlib

/-!
Verification of the generation-inference, descendant-counting, validation,
lifespan-parsing and layout logic of `src/asherFamTree.py` (a Streamlit
family-tree application).  Python dataframes are embedded as `List Person`;
the pandas `NaN` of an optional column is embedded as `Option.none`; the
`generation_map` Python dict (string keys, insertion ordered, assignment
overwrites) is embedded as an association list with an overwrite-or-append
insert.  All definitions below are transcribed from the source file; line
numbers in the doc comments refer to `src/asherFamTree.py`.
-/

set_option maxRecDepth 4000

/-- One row of the family dataframe.  Only the columns that the verified
functions read are carried: `Name` (required by the data editor, hence a
plain `String`), `Parent`, `Birth`, `Death` and `Generation` (all nullable
in the dataframe, hence `Option`). -/
structure Person where
  name : String
  parent : Option String := none
  birth : Option Int := none
  death : Option Int := none
  generation : Option Int := none
deriving DecidableEq

/-- The `generation_map` dict of `calculate_generation`: keys are names,
values are generation numbers. -/
abbrev GenMap := List (String × Nat)

/-- Python `generation_map[k]` read / `k in generation_map` test: first
binding of the key in the association list (keys stay pairwise distinct,
see `dfInsert`). -/
def mlookup : GenMap → String → Option Nat
  | [], _ => none
  | (k', v) :: m, k => if k' = k then some v else mlookup m k

/-- Python dict assignment `generation_map[k] = v`: overwrite the existing
binding in place, or append a new binding at the end (dicts preserve
insertion order). -/
def dfInsert (m : GenMap) (k : String) (v : Nat) : GenMap :=
  if (mlookup m k).isSome then
    m.map (fun p => if p.1 = k then (k, v) else p)
  else
    m ++ [(k, v)]

/-- Root test of line 173: `df['Parent'].isna() | (df['Parent'] == '')`. -/
def isRoot : Option String → Bool
  | none => true
  | some s => s = ""

/-- Lines 173-175: seed every root row with generation 1. -/
def seedRoots (df : List Person) : GenMap :=
  df.foldl (fun m r => if isRoot r.parent then dfInsert m r.name 1 else m) []

/-- The `parent in generation_map` lookup of line 183: a `NaN` parent is
never a dict key. -/
def parentGen (m : GenMap) : Option String → Option Nat
  | none => none
  | some p => mlookup m p

/-- Body of the row loop of lines 180-185: if the name is unassigned and
the parent is assigned, assign `generation_map[parent] + 1`. -/
def passStep (m : GenMap) (r : Person) : GenMap :=
  match mlookup m r.name, parentGen m r.parent with
  | none, some g => dfInsert m r.name (g + 1)
  | _, _ => m

/-- One full `for _, row in df.iterrows()` pass of lines 180-185. -/
def genPass (df : List Person) (m : GenMap) : GenMap :=
  df.foldl passStep m

/-- The `while changed` loop of lines 177-185.  The Python loop repeats the
pass until a pass changes nothing; a changed pass inserts at least one new
key and keys are drawn from the row names, so the loop always exits within
`df.length + 1` passes — the fuel below is proved sufficient
(`genPass_calculate_generation`), so this is the exact while-loop result. -/
def genLoop (df : List Person) : Nat → GenMap → GenMap
  | 0, m => m
  | n + 1, m =>
    let m' := genPass df m
    if m' = m then m else genLoop df n m'

/-- Lines 170-186, `calculate_generation`: seed roots, relax to the fixed
point, return the name-to-generation mapping. -/
def calculate_generation (df : List Person) : GenMap :=
  genLoop df (df.length + 1) (seedRoots df)

/-- The `Name` column as a list. -/
def namesOf (df : List Person) : List String :=
  df.map (·.name)

/-- Modelled from the spec: the source has no explicit
`CyclicOrUnreachable` report — `calculate_generation` returns only the
generation map.  The spec defines the report as "Any person left
unresolved after the fixed point is part of a cycle or depends
transitively on one; report as `CyclicOrUnreachable`", so the report is
the set of row names absent from the returned mapping. -/
def cyclicOrUnreachable (df : List Person) : List String :=
  (namesOf df).filter (fun n => (mlookup (calculate_generation df) n).isNone)

/-- All parent references recorded for a given name. -/
def parentNamesOf (df : List Person) (n : String) : List String :=
  df.filterMap (fun r => if r.name = n then r.parent else none)

/-- One expansion step of the ancestor closure over the name-level parent
graph. -/
def ancStep (df : List Person) (l : List String) : List String :=
  l.flatMap (parentNamesOf df)

/-- Bounded ancestor closure: saturate the parent relation for at most
`fuel` rounds. -/
def ancIter (df : List Person) : Nat → List String → List String
  | 0, acc => acc
  | f + 1, acc =>
    let nxt := (ancStep df acc).filter (fun x => ¬ acc.contains x)
    if nxt = [] then acc else ancIter df f (acc ++ nxt)

/-- Decidable acyclicity of the name-level parent graph: no name is among
its own (bounded) proper ancestors. -/
def acyclicB (df : List Person) : Bool :=
  (namesOf df).all (fun n => ¬ (ancIter df df.length (parentNamesOf df n)).contains n)

/-- The keys of a generation map, in storage order. -/
def keysOf (m : GenMap) : List String :=
  m.map Prod.fst

/-- Structural invariant of every reachable `generation_map`: keys are
pairwise distinct (Python dict keys) and drawn from the row names. -/
def validKeys (df : List Person) (m : GenMap) : Prop :=
  (keysOf m).Nodup ∧ ∀ k ∈ keysOf m, k ∈ namesOf df

/-- Relational invariant of the iteration: whenever a person whose parent
reference is a nonempty name is already assigned, the parent is assigned
too and the child's number is the parent's plus one.  (Stated for inputs
with pairwise-distinct names; the empty-name exclusion reflects that a
`''` parent is treated as a root marker by line 173, not as a name.) -/
def edgeInv (df : List Person) (m : GenMap) : Prop :=
  ∀ r ∈ df, ∀ q, r.parent = some q → q ≠ "" →
    ∀ g, mlookup m r.name = some g →
      ∃ gq, mlookup m q = some gq ∧ g = gq + 1

/-- Lines 271-273 (the Auto-Calculate button): write a generation map back
into the `Generation` column of one row — rows whose name is not in the
map keep their stored value. -/
def applyGenRow (gm : GenMap) (r : Person) : Person :=
  match mlookup gm r.name with
  | some g => { r with generation := some (g : Int) }
  | none => r

/-- Lines 270-274: the dataframe after the Auto-Calculate button has
written a generation map into the `Generation` column. -/
def applyGenMap (df : List Person) (gm : GenMap) : List Person :=
  df.map (applyGenRow gm)

/-- Two-row chain: `B`'s parent is `A`, `A` is a root. -/
def dfChainAB : List Person :=
  [{ name := ("A") }, { name := ("B"), parent := some ("A") }]

/-- Acyclic input with a duplicated name: the first `A` is a root, the
second `A` is a child of `B`. -/
def dfDupName : List Person :=
  [{ name := ("A") }, { name := ("A"), parent := some ("B") },
   { name := ("B") }]

/-- One person whose parent reference `Z` matches no row (dangling). -/
def dfDangling : List Person :=
  [{ name := ("A"), parent := some ("Z") }]

/-- The spec's cyclic pair: `A.parent = B`, `B.parent = A`. -/
def dfCyclePair : List Person :=
  [{ name := ("A"), parent := some ("B") },
   { name := ("B"), parent := some ("A") }]

/-- One person who names themselves as parent. -/
def dfSelfParent : List Person :=
  [{ name := ("A"), parent := some ("A") }]

/-- Four-person chain `A → B → C → D` (each the parent of the next). -/
def dfChain4 : List Person :=
  [{ name := ("A") }, { name := ("B"), parent := some ("A") },
   { name := ("C"), parent := some ("B") },
   { name := ("D"), parent := some ("C") }]

/-- Two people in generation 1 (for the layout claims). -/
def dfTwoGenOne : List Person :=
  [{ name := ("A"), generation := some 1 },
   { name := ("B"), generation := some 1 }]

/-- Python `str.strip()` (and Lean `String.trim`): drop whitespace from
both ends.  Written over the character list so that it evaluates inside
the kernel. -/
def pyStrip (s : String) : String :=
  String.mk (((s.toList.dropWhile (·.isWhitespace)).reverse.dropWhile
    (·.isWhitespace)).reverse)

/-- Python `str.lower()` restricted to ASCII (the only letters compared
against are those of `"none"`). -/
def pyLower (s : String) : String :=
  String.mk (s.toList.map Char.toLower)

/-- Read exactly four decimal digits (the `\d{4}` group of the lifespan
regexes, modelled over ASCII digits) and return the year with the rest of
the characters. -/
def read4 : List Char → Option (Nat × List Char)
  | a :: b :: c :: d :: rest =>
    if a.isDigit ∧ b.isDigit ∧ c.isDigit ∧ d.isDigit then
      some ((a.toNat - 48) * 1000 + (b.toNat - 48) * 100 +
            (c.toNat - 48) * 10 + (d.toNat - 48), rest)
    else none
  | _ => none

/-- The `\s*` of the lifespan regexes. -/
def skipWS (l : List Char) : List Char :=
  l.dropWhile (fun c => c.isWhitespace)

/-- Lines 40-56, `parse_lifespan`: empty or `"?"` input gives no years;
otherwise strip, then `re.match` against `(\d{4})\s*[-–]\s*(\d{4}|\?)?`
(death kept only when the optional group matched four digits, a `?` death
group is discarded), else against `(\d{4})`, else no years.  Because both
regexes are anchored prefixes starting with `(\d{4})`, the two matches
fuse into: read four digits, then try to read a dash and four more. -/
def parse_lifespan (s : String) : Option Nat × Option Nat :=
  if s = "" ∨ s = "?" then (none, none) else
  match read4 (pyStrip s).toList with
  | none => (none, none)
  | some (b, rest) =>
    match skipWS rest with
    | c :: rest2 =>
      if c = '-' ∨ c = '–' then
        match read4 (skipWS rest2) with
        | some (d, _) => (some b, some d)
        | none => (some b, none)
      else (some b, none)
    | [] => (some b, none)

/-- Line 331: `df[df['Parent'] == current]['Name'].tolist()` (a `NaN`
parent is never equal to a string). -/
def childrenOf (df : List Person) (current : String) : List String :=
  (df.filter (fun r => r.parent = some current)).map (·.name)

/-- Lines 332-335, the inner `for child in children` loop: state is the
pair (descendants set, to_check stack).  The Python set is kept as a
duplicate-free list (freshest first); the Python stack pops from the end,
so it is kept reversed: `append` is cons and `pop()` takes the head. -/
def descStep (df : List Person) (current : String) (v q : List String) :
    List String × List String :=
  (childrenOf df current).foldl
    (fun s c => if c ∈ s.1 then s else (c :: s.1, c :: s.2)) (v, q)

/-- Lines 329-335, the `while to_check` loop, with explicit fuel; the fuel
`df.length + 2` used by `count_descendants` is proved sufficient
(`descLoop_stable`), so this is the exact while-loop result. -/
def descLoop (df : List Person) : Nat → List String → List String → List String
  | 0, v, _ => v
  | _ + 1, v, [] => v
  | f + 1, v, c :: q =>
    let s := descStep df c v q
    descLoop df f s.1 s.2

/-- The final `descendants` set of `count_descendants df p`. -/
def descSet (df : List Person) (p : String) : List String :=
  descLoop df (df.length + 2) [] [p]

/-- Lines 324-337, `count_descendants`: `len(descendants)` after the
worklist traversal started from `[person_name]` with an empty set. -/
def count_descendants (df : List Person) (p : String) : Nat :=
  (descSet df p).length

/-- One validation finding of `validate_dates` (the code emits formatted
strings; only the kind and the subject name matter). -/
inductive Issue where
  | deathBeforeBirth (name : String)
  | implausibleParentAge (name : String)
deriving DecidableEq

/-- Line 162: `df[df['Name'] == row['Parent']]` followed by `.iloc[0]` —
the first row whose name equals the parent reference. -/
def firstRowNamed (df : List Person) (n : String) : Option Person :=
  df.find? (fun r => r.name = n)

/-- Lines 157-159: a death-before-birth finding is emitted when both
years are present and `Death < Birth`. -/
def dbbIssues (r : Person) : List Issue :=
  match r.birth, r.death with
  | some b, some d => if d < b then [Issue.deathBeforeBirth r.name] else []
  | _, _ => []

/-- Lines 161-166: an implausible-parent-age finding is emitted when the
row has a parent reference and a birth year, the parent name matches some
row, that first matching row has a birth year, and
`Birth < parent_birth + 15`. -/
def ipaIssues (df : List Person) (r : Person) : List Issue :=
  match r.parent, r.birth with
  | some p, some b =>
    match firstRowNamed df p with
    | some pr =>
      match pr.birth with
      | some pb =>
        if b < pb + 15 then [Issue.implausibleParentAge r.name] else []
      | none => []
    | none => []
  | _, _ => []

/-- Lines 156-166, the checks run for one row, in source order. -/
def rowIssues (df : List Person) (r : Person) : List Issue :=
  dbbIssues r ++ ipaIssues df r

/-- Lines 153-167, `validate_dates`: the `errors` list accumulated over
all rows (a total function — the validator always returns a list). -/
def validate_dates (df : List Person) : List Issue :=
  df.flatMap (rowIssues df)

/-- One entry of the `links` array of `generate_graph_html`. -/
structure EdgeT where
  source : String
  target : String
  kind : String
deriving DecidableEq

/-- Line 468: `str(row['Parent']).strip() if pd.notna(row['Parent']) else ""`. -/
def strOfOpt : Option String → String
  | none => ""
  | some s => pyStrip s

/-- Lines 404-409: the keys of `node_ids` — the stripped, nonempty row
names (duplicates overwrite the stored index but membership is unchanged). -/
def nodeNames (df : List Person) : List String :=
  df.filterMap (fun r =>
    let n := pyStrip r.name
    if n = "" then none else some n)

/-- Lines 465-475: the `links` array.  An edge `{source: parent_name,
target: node_name, type: "parent"}` is appended for every row whose
stripped name is nonempty, whose stripped parent is nonempty, whose
lower-cased parent is neither `"none"` nor `""`, and whose name and parent
both occur among the node ids.  The `kind` field carries the `"type"` key. -/
def buildLinks (df : List Person) : List EdgeT :=
  df.filterMap (fun r =>
    let node_name := pyStrip r.name
    let parent_name := strOfOpt r.parent
    if node_name ≠ "" ∧ parent_name ≠ "" ∧
        ¬ (pyLower parent_name = ("none") ∨ pyLower parent_name = "") ∧
        node_name ∈ nodeNames df ∧ parent_name ∈ nodeNames df then
      some ⟨parent_name, node_name, ("parent")⟩
    else none)

/-- One entry of the `nodes` array, restricted to the fields the layout
reads: the id and the generation (line 450: `int(row.get('Generation',
1)) if pd.notna(row.get('Generation')) else 1`). -/
structure NodeT where
  name : String
  gen : Int
deriving DecidableEq

/-- Lines 404-462: the `nodes` array (rows with an empty stripped name are
skipped). -/
def nodesOf (df : List Person) : List NodeT :=
  df.filterMap (fun r =>
    let n := pyStrip r.name
    if n = "" then none else some ⟨n, r.generation.getD 1⟩)

/-- Lines 505-509: the `generations[g]` bucket — the nodes of generation
`g` in node order. -/
def genGroup (df : List Person) (g : Int) : List NodeT :=
  (nodesOf df).filter (fun nd => nd.gen = g)

/-- Line 512: `maxNodesInGen`, the size of the largest generation bucket. -/
def maxGenCount (df : List Person) : Nat :=
  ((nodesOf df).map (fun nd => (genGroup df nd.gen).length)).foldr max 0

/-- Line 514: `dynamicWidth = Math.max(1200, maxNodesInGen * nodeWidth)`
with `nodeWidth = 180`.  JavaScript numbers are modelled exactly, as
rationals. -/
def dynamicWidth (df : List Person) : ℚ :=
  max 1200 (maxGenCount df * 180)

/-- Lines 538-544: the x coordinate of the node at index `i` of the
generation-`g` bucket: `spacing * (i + 1)` with
`spacing = dynamicWidth / (genNodes.length + 1)`. -/
def xPos (df : List Person) (g : Int) (i : Nat) : ℚ :=
  (dynamicWidth df / ((genGroup df g).length + 1)) * (i + 1)

/-- Lines 534-543: the y coordinate of every node of generation `g`:
`startY + (gen - 1) * levelHeight` with `startY = 80`,
`levelHeight = 140`. -/
def yPos (g : Int) : ℚ :=
  80 + (g - 1) * 140

/-! ### Association-list lemmas for the `generation_map` embedding -/

lemma mlookup_eq_none_iff (m : GenMap) (k : String) :
    mlookup m k = none ↔ k ∉ keysOf m := by
  induction m with
  | nil => simp [mlookup, keysOf]
  | cons p m ih =>
    obtain ⟨k', v⟩ := p
    by_cases h : k' = k
    · subst h
      simp [mlookup, keysOf]
    · simp [mlookup, keysOf, h, ih, Ne.symm h]

lemma mlookup_isSome_iff (m : GenMap) (k : String) :
    (mlookup m k).isSome = true ↔ k ∈ keysOf m := by
  constructor
  · intro h'
    by_contra hk
    rw [(mlookup_eq_none_iff m k).mpr hk] at h'
    simp at h'
  · intro hk
    cases hm : mlookup m k with
    | none => exact absurd ((mlookup_eq_none_iff m k).mp hm) (by simp [hk])
    | some v => simp

lemma mlookup_append_of_some {m m2 : GenMap} {k : String} {v : Nat}
    (h : mlookup m k = some v) : mlookup (m ++ m2) k = some v := by
  induction m with
  | nil => simp [mlookup] at h
  | cons p m ih =>
    obtain ⟨k', v'⟩ := p
    by_cases hk : k' = k
    · subst hk
      simp [mlookup] at h ⊢
      exact h
    · simp [mlookup, hk] at h ⊢
      exact ih h

lemma mlookup_append_of_none {m m2 : GenMap} {k : String}
    (h : mlookup m k = none) : mlookup (m ++ m2) k = mlookup m2 k := by
  induction m with
  | nil => simp
  | cons p m ih =>
    obtain ⟨k', v'⟩ := p
    by_cases hk : k' = k
    · subst hk
      simp [mlookup] at h
    · simp [mlookup, hk] at h ⊢
      exact ih h

lemma mlookup_overwrite_self (m : GenMap) (k : String) (v : Nat) :
    mlookup (m.map (fun p => if p.1 = k then (k, v) else p)) k =
      (mlookup m k).map (fun _ => v) := by
  induction m with
  | nil => simp [mlookup]
  | cons p m ih =>
    obtain ⟨k', v'⟩ := p
    rw [List.map_cons]
    by_cases hk : k' = k
    · subst hk
      have hh : (if ((k', v') : String × Nat).1 = k' then (k', v) else (k', v')) = (k', v) := by
        simp
      rw [hh]
      simp [mlookup]
    · have hh : (if ((k', v') : String × Nat).1 = k then (k, v) else (k', v')) = (k', v') := by
        simp [hk]
      rw [hh]
      simp [mlookup, hk, ih]

lemma mlookup_overwrite_other (m : GenMap) (k k' : String) (v : Nat)
    (h : k' ≠ k) :
    mlookup (m.map (fun p => if p.1 = k then (k, v) else p)) k' =
      mlookup m k' := by
  induction m with
  | nil => simp [mlookup]
  | cons p m ih =>
    obtain ⟨k1, v1⟩ := p
    rw [List.map_cons]
    by_cases hk : k1 = k
    · subst hk
      have hh : (if ((k1, v1) : String × Nat).1 = k1 then (k1, v) else (k1, v1)) = (k1, v) := by
        simp
      rw [hh]
      simp [mlookup, Ne.symm h, ih]
    · have hh : (if ((k1, v1) : String × Nat).1 = k then (k, v) else (k1, v1)) = (k1, v1) := by
        simp [hk]
      rw [hh]
      simp [mlookup, hk, ih]

lemma dfInsert_of_none {m : GenMap} {k : String} (v : Nat)
    (h : mlookup m k = none) : dfInsert m k v = m ++ [(k, v)] := by
  simp [dfInsert, h]

lemma dfInsert_lookup_self (m : GenMap) (k : String) (v : Nat) :
    mlookup (dfInsert m k v) k = some v := by
  unfold dfInsert
  split
  · rename_i h
    rw [mlookup_overwrite_self]
    obtain ⟨w, hw⟩ := Option.isSome_iff_exists.mp h
    simp [hw]
  · rename_i h
    rw [mlookup_append_of_none (by simpa using h)]
    simp [mlookup]

lemma dfInsert_lookup_other (m : GenMap) (k k' : String) (v : Nat)
    (h : k' ≠ k) : mlookup (dfInsert m k v) k' = mlookup m k' := by
  unfold dfInsert
  split
  · exact mlookup_overwrite_other m k k' v h
  · cases hm : mlookup m k' with
    | some w => exact mlookup_append_of_some hm
    | none =>
      rw [mlookup_append_of_none hm]
      simp [mlookup, Ne.symm h]

lemma keysOf_overwrite (m : GenMap) (k : String) (v : Nat) :
    keysOf (m.map (fun p => if p.1 = k then (k, v) else p)) = keysOf m := by
  induction m with
  | nil => rfl
  | cons p m ih =>
    obtain ⟨k1, v1⟩ := p
    by_cases hk : k1 = k
    · subst hk
      simp [keysOf] at ih ⊢
      exact ih
    · simp [keysOf, hk] at ih ⊢
      exact ih

lemma keysOf_append (m m2 : GenMap) :
    keysOf (m ++ m2) = keysOf m ++ keysOf m2 := by
  simp [keysOf]

/-! ### Invariants of the `calculate_generation` fixed-point iteration -/

lemma foldl_preserve {α β : Type} (P : β → Prop) (step : β → α → β) :
    ∀ (l : List α) (b : β), (∀ b' a, a ∈ l → P b' → P (step b' a)) → P b →
      P (l.foldl step b)
  | [], b, _, hb => hb
  | a :: l, b, h, hb =>
    foldl_preserve P step l (step b a)
      (fun b' a' ha' => h b' a' (List.mem_cons_of_mem a ha'))
      (h b a (List.mem_cons_self a l) hb)

lemma passStep_eq_or (m : GenMap) (r : Person) :
    passStep m r = m ∨
      (mlookup m r.name = none ∧ ∃ p g, r.parent = some p ∧
        mlookup m p = some g ∧ passStep m r = m ++ [(r.name, g + 1)]) := by
  unfold passStep
  split
  · rename_i hname hpar
    right
    refine ⟨hname, ?_⟩
    cases hp : r.parent with
    | none => rw [hp] at hpar; simp [parentGen] at hpar
    | some p =>
      rw [hp] at hpar
      simp only [parentGen] at hpar
      exact ⟨p, _, rfl, hpar, dfInsert_of_none _ hname⟩
  · left; rfl

lemma passStep_mono {m : GenMap} {k : String} {v : Nat} (r : Person)
    (h : mlookup m k = some v) : mlookup (passStep m r) k = some v := by
  rcases passStep_eq_or m r with he | ⟨hn, p, g, _, _, he⟩
  · rw [he]; exact h
  · rw [he]; exact mlookup_append_of_some h

lemma genPass_mono {df : List Person} {m : GenMap} {k : String} {v : Nat}
    (h : mlookup m k = some v) : mlookup (genPass df m) k = some v :=
  foldl_preserve (fun m' => mlookup m' k = some v) passStep df m
    (fun m' r _ hm => passStep_mono r hm) h

lemma genLoop_mono {df : List Person} {k : String} {v : Nat} :
    ∀ (n : Nat) (m : GenMap), mlookup m k = some v →
      mlookup (genLoop df n m) k = some v := by
  intro n
  induction n with
  | zero => intro m h; exact h
  | succ n ih =>
    intro m h
    simp only [genLoop]
    split
    · exact h
    · exact ih (genPass df m) (genPass_mono h)

lemma passStep_length_ge (m : GenMap) (r : Person) :
    m.length ≤ (passStep m r).length := by
  rcases passStep_eq_or m r with he | ⟨hn, p, g, _, _, he⟩ <;> rw [he] <;> simp

lemma genPass_length_ge (df : List Person) :
    ∀ (l : List Person) (m : GenMap), m.length ≤ (l.foldl passStep m).length := by
  intro l
  induction l with
  | nil => intro m; exact Nat.le_refl _
  | cons a l ih =>
    intro m
    exact Nat.le_trans (passStep_length_ge m a) (ih (passStep m a))

lemma genPass_eq_or_lt (df : List Person) :
    ∀ (l : List Person) (m : GenMap),
      l.foldl passStep m = m ∨ m.length < (l.foldl passStep m).length := by
  intro l
  induction l with
  | nil => intro m; left; rfl
  | cons a l ih =>
    intro m
    rcases passStep_eq_or m a with he | ⟨hn, p, g, _, _, he⟩
    · rw [List.foldl_cons, he]
      exact ih m
    · right
      rw [List.foldl_cons, he]
      calc m.length < (m ++ [(a.name, g + 1)]).length := by simp
        _ ≤ _ := genPass_length_ge df l _

lemma validKeys_dfInsert {df : List Person} {m : GenMap} {k : String}
    (v : Nat) (h : validKeys df m) (hk : k ∈ namesOf df) :
    validKeys df (dfInsert m k v) := by
  unfold dfInsert
  split
  · rw [validKeys, keysOf_overwrite]
    exact h
  · rename_i hs
    have hnk : k ∉ keysOf m := by
      rw [← mlookup_eq_none_iff]
      cases hm : mlookup m k
      · rfl
      · rw [hm] at hs; simp at hs
    constructor
    · rw [keysOf_append]
      simp only [keysOf, List.map_cons, List.map_nil]
      rw [List.nodup_append]
      refine ⟨h.1, List.nodup_singleton k, ?_⟩
      intro a ha hb
      rw [List.mem_singleton] at hb
      subst hb
      exact hnk ha
    · intro k' hk'
      rw [keysOf_append] at hk'
      rcases List.mem_append.mp hk' with h1 | h1
      · exact h.2 k' h1
      · simp [keysOf] at h1
        rw [h1]
        exact hk

lemma validKeys_seedRoots (df : List Person) : validKeys df (seedRoots df) := by
  unfold seedRoots
  refine foldl_preserve (validKeys df) _ df [] ?_ ?_
  · intro m r hr hm
    split
    · exact validKeys_dfInsert 1 hm (List.mem_map_of_mem (·.name) hr)
    · exact hm
  · exact ⟨List.nodup_nil, by simp [keysOf]⟩

lemma validKeys_passStep {df : List Person} {m : GenMap} {r : Person}
    (hr : r ∈ df) (h : validKeys df m) : validKeys df (passStep m r) := by
  rcases passStep_eq_or m r with he | ⟨hn, p, g, _, _, he⟩
  · rw [he]; exact h
  · rw [he, ← dfInsert_of_none _ hn]
    exact validKeys_dfInsert _ h (List.mem_map_of_mem (·.name) hr)

lemma validKeys_genPass {df : List Person} {m : GenMap}
    (h : validKeys df m) : validKeys df (genPass df m) :=
  foldl_preserve (validKeys df) passStep df m
    (fun m' r hr hm => validKeys_passStep hr hm) h

lemma length_le_of_validKeys {df : List Person} {m : GenMap}
    (h : validKeys df m) : m.length ≤ df.length := by
  have h0 : m.length = (keysOf m).length := by simp [keysOf]
  have h1 : (keysOf m).toFinset.card = (keysOf m).length :=
    List.toFinset_card_of_nodup h.1
  have h2 : (keysOf m).toFinset ⊆ (namesOf df).toFinset := by
    intro x hx
    rw [List.mem_toFinset] at hx ⊢
    exact h.2 x hx
  have h3 : (namesOf df).toFinset.card ≤ (namesOf df).length :=
    List.toFinset_card_le (namesOf df)
  have h4 : (namesOf df).length = df.length := by simp [namesOf]
  have h5 : (keysOf m).toFinset.card ≤ (namesOf df).toFinset.card :=
    Finset.card_le_card h2
  omega

lemma genLoop_fix {df : List Person} :
    ∀ (n : Nat) (m : GenMap), validKeys df m → df.length < m.length + n →
      genPass df (genLoop df n m) = genLoop df n m := by
  intro n
  induction n with
  | zero =>
    intro m hv hlen
    exact absurd (length_le_of_validKeys hv) (by omega)
  | succ n ih =>
    intro m hv hlen
    simp only [genLoop]
    by_cases h : genPass df m = m
    · rw [if_pos h, h]
    · rw [if_neg h]
      rcases genPass_eq_or_lt df df m with he | hlt
      · exact absurd he h
      · have hlt2 : m.length < (genPass df m).length := hlt
        exact ih (genPass df m) (validKeys_genPass hv) (by omega)

/-- The returned map is a genuine fixed point of the full row pass: the
embedded `while changed` loop exits exactly when a pass changes nothing,
and the fuel `df.length + 1` always suffices. -/
lemma genPass_calculate_generation (df : List Person) :
    genPass df (calculate_generation df) = calculate_generation df :=
  genLoop_fix (df.length + 1) (seedRoots df) (validKeys_seedRoots df)
    (by omega)

lemma validKeys_genLoop {df : List Person} :
    ∀ (n : Nat) (m : GenMap), validKeys df m → validKeys df (genLoop df n m) := by
  intro n
  induction n with
  | zero => intro m h; exact h
  | succ n ih =>
    intro m h
    simp only [genLoop]
    split
    · exact h
    · exact ih _ (validKeys_genPass h)

lemma validKeys_calculate_generation (df : List Person) :
    validKeys df (calculate_generation df) :=
  validKeys_genLoop _ _ (validKeys_seedRoots df)

/-! ### Seeding and the root/edge properties of the returned mapping -/

lemma seedRoots_chr (df : List Person) :
    ∀ k v, mlookup (seedRoots df) k = some v →
      v = 1 ∧ ∃ r, r ∈ df ∧ r.name = k ∧ isRoot r.parent = true := by
  unfold seedRoots
  refine foldl_preserve
    (fun m => ∀ k v, mlookup m k = some v →
      v = 1 ∧ ∃ r, r ∈ df ∧ r.name = k ∧ isRoot r.parent = true) _ df [] ?_ ?_
  · intro m r hr hm k v hk
    by_cases hroot : isRoot r.parent = true
    · rw [if_pos hroot] at hk
      by_cases hkr : k = r.name
      · subst hkr
        rw [dfInsert_lookup_self] at hk
        refine ⟨(Option.some.inj hk).symm, r, hr, rfl, hroot⟩
      · rw [dfInsert_lookup_other m r.name k 1 hkr] at hk
        exact hm k v hk
    · rw [if_neg hroot] at hk
      exact hm k v hk
  · intro k v hk
    simp [mlookup] at hk

lemma dfInsert_lookup_isSome_mono {m : GenMap} {k k' : String} (v : Nat)
    (h : (mlookup m k').isSome = true) :
    (mlookup (dfInsert m k v) k').isSome = true := by
  by_cases hk : k' = k
  · subst hk
    rw [dfInsert_lookup_self]
    rfl
  · rw [dfInsert_lookup_other m k k' v hk]
    exact h

lemma seed_aux (df : List Person) (r : Person) (hroot : isRoot r.parent = true) :
    ∀ (l : List Person) (m : GenMap),
      (r ∈ l ∨ (mlookup m r.name).isSome = true) →
      (mlookup
        (l.foldl (fun m x => if isRoot x.parent then dfInsert m x.name 1 else m) m)
        r.name).isSome = true := by
  intro l
  induction l with
  | nil =>
    intro m h
    rcases h with h | h
    · cases h
    · exact h
  | cons a l ih =>
    intro m h
    rw [List.foldl_cons]
    rcases h with h | h
    · rcases List.mem_cons.mp h with h1 | h1
      · subst h1
        refine ih _ (Or.inr ?_)
        rw [if_pos hroot, dfInsert_lookup_self]
        rfl
      · exact ih _ (Or.inl h1)
    · refine ih _ (Or.inr ?_)
      by_cases ha : isRoot a.parent = true
      · rw [if_pos ha]
        exact dfInsert_lookup_isSome_mono 1 h
      · rw [if_neg ha]
        exact h

lemma root_generation_one {df : List Person} {r : Person} (hr : r ∈ df)
    (hroot : isRoot r.parent = true) :
    mlookup (calculate_generation df) r.name = some 1 := by
  have h1 : (mlookup (seedRoots df) r.name).isSome = true :=
    seed_aux df r hroot df [] (Or.inl hr)
  obtain ⟨v, hv⟩ := Option.isSome_iff_exists.mp h1
  obtain ⟨hv1, -⟩ := seedRoots_chr df r.name v hv
  subst hv1
  exact genLoop_mono (df.length + 1) (seedRoots df) hv

lemma foldl_passStep_id :
    ∀ (l : List Person) (m : GenMap),
      l.foldl passStep m = m → ∀ r ∈ l, passStep m r = m := by
  intro l
  induction l with
  | nil =>
    intro m h r hr
    cases hr
  | cons a l ih =>
    intro m h r hr
    rw [List.foldl_cons] at h
    have h2 : (passStep m a).length ≤ (l.foldl passStep (passStep m a)).length :=
      genPass_length_ge [] l _
    have h3 : (l.foldl passStep (passStep m a)).length = m.length := by rw [h]
    have h4 : passStep m a = m := by
      rcases passStep_eq_or m a with he | ⟨hn, p, g, hp, hg, he⟩
      · exact he
      · exfalso
        have hlen : (passStep m a).length = m.length + 1 := by rw [he]; simp
        omega
    rcases List.mem_cons.mp hr with h5 | h5
    · subst h5
      exact h4
    · rw [h4] at h
      exact ih m h r h5

lemma passStep_calc_fix {df : List Person} {r : Person} (hr : r ∈ df) :
    passStep (calculate_generation df) r = calculate_generation df :=
  foldl_passStep_id df (calculate_generation df)
    (genPass_calculate_generation df) r hr

lemma eq_of_name_eq {df : List Person} (hnd : (namesOf df).Nodup)
    {r r' : Person} (hr : r ∈ df) (hr' : r' ∈ df) (h : r.name = r'.name) :
    r = r' :=
  List.inj_on_of_nodup_map hnd hr hr' h

lemma isRoot_some_iff (q : String) : isRoot (some q) = true ↔ q = "" := by
  simp [isRoot]

lemma edgeInv_seedRoots {df : List Person} (hnd : (namesOf df).Nodup) :
    edgeInv df (seedRoots df) := by
  intro r hr q hq hq2 g hg
  obtain ⟨-, r', hr', hname, hroot⟩ := seedRoots_chr df r.name g hg
  have heq : r' = r := eq_of_name_eq hnd hr' hr hname
  subst heq
  rw [hq] at hroot
  exact absurd ((isRoot_some_iff q).mp hroot) hq2

lemma edgeInv_passStep {df : List Person} {m : GenMap} {r0 : Person}
    (hnd : (namesOf df).Nodup) (hr0 : r0 ∈ df) (h : edgeInv df m) :
    edgeInv df (passStep m r0) := by
  rcases passStep_eq_or m r0 with he | ⟨hn, p, gp, hp, hgp, he⟩
  · rw [he]; exact h
  · rw [he]
    intro r hr q hq hq2 g hg
    by_cases hname : r.name = r0.name
    · have heq : r = r0 := eq_of_name_eq hnd hr hr0 hname
      subst heq
      have hqp : q = p := by
        rw [hp] at hq
        exact (Option.some.inj hq).symm
      subst hqp
      have hpn : q ≠ r.name := by
        intro hc
        rw [hc, hn] at hgp
        cases hgp
      have hgval : g = gp + 1 := by
        rw [hname] at hg
        rw [mlookup_append_of_none hn] at hg
        simp [mlookup] at hg
        omega
      refine ⟨gp, mlookup_append_of_some hgp, hgval⟩
    · have hg' : mlookup m r.name = some g := by
        cases hm : mlookup m r.name with
        | some v =>
          rw [mlookup_append_of_some hm] at hg
          exact hg
        | none =>
          rw [mlookup_append_of_none hm] at hg
          simp [mlookup] at hg
          exact absurd hg.1 (fun hc => hname hc.symm)
      obtain ⟨gq, hgq, hgsum⟩ := h r hr q hq hq2 g hg'
      exact ⟨gq, mlookup_append_of_some hgq, hgsum⟩

lemma edgeInv_genPass {df : List Person} {m : GenMap}
    (hnd : (namesOf df).Nodup) (h : edgeInv df m) :
    edgeInv df (genPass df m) :=
  foldl_preserve (edgeInv df) passStep df m
    (fun m' r hr hm => edgeInv_passStep hnd hr hm) h

lemma edgeInv_genLoop {df : List Person} (hnd : (namesOf df).Nodup) :
    ∀ (n : Nat) (m : GenMap), edgeInv df m → edgeInv df (genLoop df n m) := by
  intro n
  induction n with
  | zero => intro m h; exact h
  | succ n ih =>
    intro m h
    simp only [genLoop]
    split
    · exact h
    · exact ih _ (edgeInv_genPass hnd h)

lemma edgeInv_calculate_generation {df : List Person}
    (hnd : (namesOf df).Nodup) : edgeInv df (calculate_generation df) :=
  edgeInv_genLoop hnd _ _ (edgeInv_seedRoots hnd)

lemma edge_generation_succ {df : List Person} {r : Person} {q : String}
    {gq : Nat} (hnd : (namesOf df).Nodup) (hne : ("" : String) ∉ namesOf df)
    (hr : r ∈ df) (hq : r.parent = some q)
    (hgq : mlookup (calculate_generation df) q = some gq) :
    mlookup (calculate_generation df) r.name = some (gq + 1) := by
  have hvalid := validKeys_calculate_generation df
  have hqmem : q ∈ keysOf (calculate_generation df) :=
    (mlookup_isSome_iff _ _).mp (by rw [hgq]; rfl)
  have hq2 : q ≠ "" := fun hc => hne (hc ▸ hvalid.2 q hqmem)
  have hfix := passStep_calc_fix hr
  cases hmr : mlookup (calculate_generation df) r.name with
  | some g =>
    obtain ⟨gq', hgq', hsum⟩ :=
      edgeInv_calculate_generation hnd r hr q hq hq2 g hmr
    rw [hgq] at hgq'
    rw [hsum, ← Option.some.inj hgq']
  | none =>
    exfalso
    unfold passStep at hfix
    rw [hmr, hq] at hfix
    simp only [parentGen, hgq] at hfix
    rw [dfInsert_of_none _ hmr] at hfix
    have hlen := congrArg List.length hfix
    simp at hlen

lemma dangling_not_assigned {df : List Person} {r : Person} {q : String}
    (hnd : (namesOf df).Nodup) (hr : r ∈ df) (hq : r.parent = some q)
    (hqnot : q ∉ namesOf df) (hq2 : q ≠ "") :
    mlookup (calculate_generation df) r.name = none := by
  have hseed : mlookup (seedRoots df) r.name = none := by
    cases hs : mlookup (seedRoots df) r.name with
    | none => rfl
    | some v =>
      exfalso
      obtain ⟨-, r', hr', hname, hroot⟩ := seedRoots_chr df r.name v hs
      have heq : r' = r := eq_of_name_eq hnd hr' hr hname
      subst heq
      rw [hq] at hroot
      exact hq2 ((isRoot_some_iff q).mp hroot)
  have hstep : ∀ (m : GenMap) (r' : Person), r' ∈ df →
      validKeys df m ∧ mlookup m r.name = none →
      validKeys df (passStep m r') ∧ mlookup (passStep m r') r.name = none := by
    intro m r' hr' ⟨hv, hnone⟩
    refine ⟨validKeys_passStep hr' hv, ?_⟩
    rcases passStep_eq_or m r' with he | ⟨hn, p, gp, hp, hgp, he⟩
    · rw [he]; exact hnone
    · rw [he]
      have hpn : r'.name ≠ r.name := by
        intro hc
        have heq : r' = r := eq_of_name_eq hnd hr' hr hc
        subst heq
        rw [hq] at hp
        have hqp : p = q := (Option.some.inj hp).symm
        subst hqp
        have : p ∈ namesOf df :=
          hv.2 p ((mlookup_isSome_iff _ _).mp (by rw [hgp]; rfl))
        exact hqnot this
      rw [mlookup_append_of_none hnone]
      simp [mlookup, hpn]
  have hpass : ∀ (m : GenMap), validKeys df m ∧ mlookup m r.name = none →
      validKeys df (genPass df m) ∧ mlookup (genPass df m) r.name = none :=
    fun m hm =>
      foldl_preserve
        (fun m' => validKeys df m' ∧ mlookup m' r.name = none) passStep df m
        (fun m' a ha hm' => hstep m' a ha hm') hm
  have hloop : ∀ (n : Nat) (m : GenMap),
      validKeys df m ∧ mlookup m r.name = none →
      mlookup (genLoop df n m) r.name = none := by
    intro n
    induction n with
    | zero => intro m hm; exact hm.2
    | succ n ih =>
      intro m hm
      simp only [genLoop]
      split
      · exact hm.2
      · exact ih _ (hpass m hm)
  exact hloop (df.length + 1) (seedRoots df) ⟨validKeys_seedRoots df, hseed⟩

/-! ### Independence of `calculate_generation` from the Generation column -/

lemma passStep_congr {m : GenMap} {r r' : Person} (h1 : r'.name = r.name)
    (h2 : r'.parent = r.parent) : passStep m r' = passStep m r := by
  unfold passStep
  rw [h1, h2]

lemma applyGenRow_name (gm : GenMap) (r : Person) :
    (applyGenRow gm r).name = r.name := by
  unfold applyGenRow
  split <;> rfl

lemma applyGenRow_parent (gm : GenMap) (r : Person) :
    (applyGenRow gm r).parent = r.parent := by
  unfold applyGenRow
  split <;> rfl

lemma foldl_passStep_applyGenMap (gm : GenMap) :
    ∀ (l : List Person) (m : GenMap),
      (l.map (applyGenRow gm)).foldl passStep m = l.foldl passStep m := by
  intro l
  induction l with
  | nil => intro m; rfl
  | cons a l ih =>
    intro m
    rw [List.map_cons, List.foldl_cons, List.foldl_cons,
      passStep_congr (applyGenRow_name gm a) (applyGenRow_parent gm a)]
    exact ih _

lemma genPass_applyGenMap (df : List Person) (gm : GenMap) (m : GenMap) :
    genPass (applyGenMap df gm) m = genPass df m :=
  foldl_passStep_applyGenMap gm df m

lemma seedRoots_applyGenMap (df : List Person) (gm : GenMap) :
    seedRoots (applyGenMap df gm) = seedRoots df := by
  unfold seedRoots applyGenMap
  generalize ([] : GenMap) = m
  induction df generalizing m with
  | nil => rfl
  | cons a l ih =>
    rw [List.map_cons, List.foldl_cons, List.foldl_cons,
      applyGenRow_name gm a, applyGenRow_parent gm a]
    exact ih _

lemma genLoop_applyGenMap (df : List Person) (gm : GenMap) :
    ∀ (n : Nat) (m : GenMap),
      genLoop (applyGenMap df gm) n m = genLoop df n m := by
  intro n
  induction n with
  | zero => intro m; rfl
  | succ n ih =>
    intro m
    simp only [genLoop, genPass_applyGenMap df gm m]
    split
    · rfl
    · exact ih _

/-! ### Claim theorems C1 - C4 -/

/-- C1 (amended): for every input whose names are pairwise distinct and
nonempty (in particular for every such acyclic input), the mapping
returned by `calculate_generation` assigns generation 1 to every person
whose `Parent` field is absent, and assigns
`generation(child) = generation(parent) + 1` to every person whose
`Parent` name carries a computed generation.  (The amendment adds the
distinct/nonempty-name hypotheses: the original universally quantified
claim fails on acyclic inputs with duplicated names, see the
counterexample.) -/
theorem c1_generation_roots_and_edges (df : List Person)
    (hnd : (namesOf df).Nodup) (hne : ("" : String) ∉ namesOf df)
    (hac : acyclicB df = true) :
    (∀ r, r ∈ df → r.parent = none →
      mlookup (calculate_generation df) r.name = some 1) ∧
    (∀ r q gq, r ∈ df → r.parent = some q →
      mlookup (calculate_generation df) q = some gq →
      mlookup (calculate_generation df) r.name = some (gq + 1)) := by
  refine ⟨?_, ?_⟩
  · intro r hr hp
    exact root_generation_one hr (by rw [hp]; rfl)
  · intro r q gq hr hq hgq
    exact edge_generation_succ hnd hne hr hq hgq

/-- C1 counterexample: `dfDupName` is acyclic (checked by the bounded
ancestor closure), the row `⟨A, parent B⟩` is present, `B` holds computed
generation 1, yet the mapping holds generation 1 — not 2 — at name `A`,
because the duplicated root name `A` was seeded first.  So the claim as
stated (for every acyclic input) is false. -/
theorem c1_counterexample :
    acyclicB dfDupName = true ∧
    ({ name := ("A"), parent := some ("B") } : Person) ∈ dfDupName ∧
    mlookup (calculate_generation dfDupName) ("B") = some 1 ∧
    mlookup (calculate_generation dfDupName) ("A") = some 1 ∧
    mlookup (calculate_generation dfDupName) ("A") ≠ some 2 := by
  refine ⟨by decide, by decide, by decide, by decide, by decide⟩

/-- C1 witness: the amended theorem applied to the concrete two-person
chain `A ← B`. -/
theorem c1_witness :
    mlookup (calculate_generation dfChainAB) ("A") = some 1 ∧
    mlookup (calculate_generation dfChainAB) ("B") = some 2 :=
  ⟨(c1_generation_roots_and_edges dfChainAB (by decide) (by decide)
      (by decide)).1 { name := ("A") } (by decide) rfl,
   (c1_generation_roots_and_edges dfChainAB (by decide) (by decide)
      (by decide)).2 { name := ("B"), parent := some ("A") } ("A") 1
      (by decide) rfl
      ((c1_generation_roots_and_edges dfChainAB (by decide) (by decide)
        (by decide)).1 { name := ("A") } (by decide) rfl)⟩

/-- C2 (amended): a person whose parent reference is set to a nonempty
name that resolves to no row is NOT treated as a root: in an input with
pairwise-distinct names such a person is left out of the returned mapping
entirely (and is therefore reported as unresolved), rather than being
assigned generation 1.  Only rows whose `Parent` is absent or the empty
string are seeded as roots (line 173). -/
theorem c2_dangling_parent_unassigned (df : List Person) (r : Person)
    (q : String) (hnd : (namesOf df).Nodup) (hr : r ∈ df)
    (hq : r.parent = some q) (hqnot : q ∉ namesOf df) (hq2 : q ≠ "") :
    mlookup (calculate_generation df) r.name = none ∧
    r.name ∈ cyclicOrUnreachable df := by
  have h1 := dangling_not_assigned hnd hr hq hqnot hq2
  refine ⟨h1, ?_⟩
  apply List.mem_filter.mpr
  refine ⟨List.mem_map_of_mem (·.name) hr, ?_⟩
  rw [h1]
  rfl

/-- C2 counterexample: in `dfDangling` the single person `A` has the
dangling parent reference `Z`; `calculate_generation` returns the empty
mapping, so `A` is not assigned generation 1 as the claim states. -/
theorem c2_counterexample :
    ({ name := ("A"), parent := some ("Z") } : Person) ∈ dfDangling ∧
    calculate_generation dfDangling = [] ∧
    mlookup (calculate_generation dfDangling) ("A") ≠ some 1 := by
  refine ⟨by decide, by decide, by decide⟩

/-- C2 witness: the amended theorem applied to `dfDangling`. -/
theorem c2_witness :
    mlookup (calculate_generation dfDangling) ("A") = none ∧
    ("A") ∈ cyclicOrUnreachable dfDangling :=
  c2_dangling_parent_unassigned dfDangling
    { name := ("A"), parent := some ("Z") } ("Z") (by decide) (by decide)
    rfl (by decide) (by decide)

/-- C3: on the cyclic pair `{A.parent = B, B.parent = A}` the generation
resolution terminates (the returned map is an honest fixed point of the
row pass, which is the while-loop exit condition) and returns the empty
mapping: neither `A` nor `B` is assigned a generation by the propagation,
and both are reported as `CyclicOrUnreachable` (the spec-modelled report:
the names absent from the returned mapping). -/
theorem c3_cyclic_pair_terminates :
    calculate_generation dfCyclePair = [] ∧
    genPass dfCyclePair (calculate_generation dfCyclePair) =
      calculate_generation dfCyclePair ∧
    mlookup (calculate_generation dfCyclePair) ("A") = none ∧
    mlookup (calculate_generation dfCyclePair) ("B") = none ∧
    cyclicOrUnreachable dfCyclePair = [("A"), ("B")] := by
  refine ⟨by decide, by decide, by decide, by decide, by decide⟩

/-- C4: `calculate_generation` reads only the `Name` and `Parent` columns,
so it is independent of whatever the `Generation` column holds: writing
ANY generation map back into the column (as the Auto-Calculate button
does with the previous run's output) leaves the computed name-to-
generation mapping unchanged — in particular re-running the resolver on
its own output-derived generations reproduces the same mapping, and the
resolver is idempotent. -/
theorem c4_generation_column_independent (df : List Person) (gm : GenMap) :
    calculate_generation (applyGenMap df gm) = calculate_generation df := by
  unfold calculate_generation
  have hlen : (applyGenMap df gm).length = df.length := by
    simp [applyGenMap]
  rw [hlen, seedRoots_applyGenMap df gm]
  exact genLoop_applyGenMap df gm (df.length + 1) (seedRoots df)

/-! ### Termination and dedup of the descendant traversal -/

lemma childrenOf_subset (df : List Person) (current : String) :
    ∀ c ∈ childrenOf df current, c ∈ namesOf df := by
  intro c hc
  unfold childrenOf at hc
  obtain ⟨r, hr, hname⟩ := List.mem_map.mp hc
  exact hname ▸ List.mem_map_of_mem (·.name) (List.mem_of_mem_filter hr)

lemma descFold_measure (df : List Person) :
    ∀ (cs : List String), (∀ c ∈ cs, c ∈ namesOf df) →
      ∀ (v q : List String),
      (((namesOf df).toFinset \
        (cs.foldl (fun s c => if c ∈ s.1 then s else (c :: s.1, c :: s.2))
          (v, q)).1.toFinset).card +
        (cs.foldl (fun s c => if c ∈ s.1 then s else (c :: s.1, c :: s.2))
          (v, q)).2.length =
        ((namesOf df).toFinset \ v.toFinset).card + q.length) ∧
      (v.Nodup →
        (cs.foldl (fun s c => if c ∈ s.1 then s else (c :: s.1, c :: s.2))
          (v, q)).1.Nodup) := by
  intro cs
  induction cs with
  | nil => intro h v q; exact ⟨rfl, fun hv => hv⟩
  | cons c cs ih =>
    intro h v q
    have hc : c ∈ namesOf df := h c (List.mem_cons_self c cs)
    have hrest : ∀ c' ∈ cs, c' ∈ namesOf df :=
      fun c' hc' => h c' (List.mem_cons_of_mem c hc')
    rw [List.foldl_cons]
    by_cases hmem : c ∈ v
    · rw [if_pos hmem]
      exact ih hrest v q
    · rw [if_neg hmem]
      obtain ⟨ih1, ih2⟩ := ih hrest (c :: v) (c :: q)
      constructor
      · rw [ih1]
        have hins : (c :: v).toFinset = insert c v.toFinset := by simp
        have hcd : c ∈ (namesOf df).toFinset \ v.toFinset := by
          rw [Finset.mem_sdiff, List.mem_toFinset, List.mem_toFinset]
          exact ⟨hc, hmem⟩
        have hsd : (namesOf df).toFinset \ (c :: v).toFinset =
            ((namesOf df).toFinset \ v.toFinset).erase c := by
          rw [hins, Finset.sdiff_insert]
        rw [hsd]
        have := Finset.card_erase_add_one hcd
        simp only [List.length_cons]
        omega
      · intro hv
        exact ih2 (List.nodup_cons.mpr ⟨hmem, hv⟩)

lemma descStep_measure (df : List Person) (current : String)
    (v q : List String) :
    ((namesOf df).toFinset \ (descStep df current v q).1.toFinset).card +
      (descStep df current v q).2.length =
      ((namesOf df).toFinset \ v.toFinset).card + q.length :=
  (descFold_measure df (childrenOf df current)
    (childrenOf_subset df current) v q).1

lemma descStep_nodup (df : List Person) (current : String)
    (v q : List String) (hv : v.Nodup) : (descStep df current v q).1.Nodup :=
  (descFold_measure df (childrenOf df current)
    (childrenOf_subset df current) v q).2 hv

lemma descLoop_succ_eq (df : List Person) :
    ∀ (n : Nat) (v q : List String),
      ((namesOf df).toFinset \ v.toFinset).card + q.length < n →
      descLoop df n v q = descLoop df (n + 1) v q := by
  intro n
  induction n with
  | zero => intro v q h; exact absurd h (Nat.not_lt_zero _)
  | succ n ih =>
    intro v q h
    cases q with
    | nil => rfl
    | cons c rest =>
      show descLoop df n (descStep df c v rest).1 (descStep df c v rest).2 =
        descLoop df (n + 1) (descStep df c v rest).1 (descStep df c v rest).2
      apply ih
      have hm := descStep_measure df c v rest
      simp only [List.length_cons] at h
      omega

lemma descLoop_ge_eq (df : List Person) :
    ∀ (k n : Nat) (v q : List String),
      ((namesOf df).toFinset \ v.toFinset).card + q.length < n →
      descLoop df n v q = descLoop df (n + k) v q := by
  intro k
  induction k with
  | zero => intro n v q h; rfl
  | succ k ih =>
    intro n v q h
    rw [ih n v q h, descLoop_succ_eq df (n + k) v q (by omega)]
    rfl

lemma descLoop_nodup (df : List Person) :
    ∀ (n : Nat) (v q : List String), v.Nodup → (descLoop df n v q).Nodup := by
  intro n
  induction n with
  | zero => intro v q hv; exact hv
  | succ n ih =>
    intro v q hv
    cases q with
    | nil => exact hv
    | cons c rest => exact ih _ _ (descStep_nodup df c v rest hv)

/-! ### Claim theorems C5 and C6 -/

/-- C5 (code bug): on the four-person chain the descendant count of `A` is
3, as claimed — but the claim that a person is never counted among their
own descendants fails on cyclic inputs: the `descendants` set is used as
the visited guard and the start person is never pre-inserted into it, so
a self-referencing parent edge (or the two-person cycle) puts the start
person into their own descendant set.  This theorem evaluates
`count_descendants` at the failing inputs. -/
theorem c5_self_descendant_bug :
    count_descendants dfChain4 ("A") = 3 ∧
    count_descendants dfSelfParent ("A") = 1 ∧
    ("A") ∈ descSet dfSelfParent ("A") ∧
    count_descendants dfCyclePair ("A") = 2 ∧
    ("A") ∈ descSet dfCyclePair ("A") := by
  refine ⟨by decide, by decide, by decide, by decide, by decide⟩

/-- C6: the worklist of `count_descendants` terminates on every input —
running the loop with ANY fuel at least `df.length + 2` returns the same
set, i.e. the unbounded Python `while to_check` loop reaches its exit
within that many iterations — and the returned count is the size of a
duplicate-free visited set, so every descendant is counted at most once,
also on disconnected or cyclic parent graphs. -/
theorem c6_count_descendants_terminates (df : List Person) (p : String)
    (fuel : Nat) (hfuel : df.length + 2 ≤ fuel) :
    descLoop df fuel [] [p] = descSet df p ∧
    (descSet df p).Nodup ∧
    count_descendants df p = (descSet df p).length := by
  have hcard : (namesOf df).toFinset.card ≤ df.length := by
    have h1 := List.toFinset_card_le (namesOf df)
    have h2 : (namesOf df).length = df.length := by simp [namesOf]
    omega
  have hM : ((namesOf df).toFinset \
      (([] : List String)).toFinset).card + [p].length < df.length + 2 := by
    simp only [List.toFinset_nil, Finset.sdiff_empty, List.length_singleton]
    omega
  refine ⟨?_, descLoop_nodup df _ _ _ List.nodup_nil, rfl⟩
  have hsplit : fuel = (df.length + 2) + (fuel - (df.length + 2)) := by omega
  rw [hsplit]
  exact (descLoop_ge_eq df (fuel - (df.length + 2)) (df.length + 2) [] [p] hM).symm

/-- C6 witness: the termination theorem applied to the cyclic pair with
fuel 10. -/
theorem c6_witness :
    dfCyclePair.length + 2 ≤ 10 ∧
    (descLoop dfCyclePair 10 [] [("A")] = descSet dfCyclePair ("A") ∧
      (descSet dfCyclePair ("A")).Nodup ∧
      count_descendants dfCyclePair ("A") =
        (descSet dfCyclePair ("A")).length) :=
  ⟨by decide,
   c6_count_descendants_terminates dfCyclePair ("A") 10 (by decide)⟩

/-! ### Claim theorems C7 and C8 -/

lemma pyLower_ne_empty {s : String} (h : s ≠ "") : pyLower s ≠ "" := by
  intro hc
  apply h
  have h1 : s.toList.map Char.toLower = [] := by
    simpa [pyLower] using congrArg String.toList hc
  have h3 : s.toList = [] := by
    cases hl : s.toList with
    | nil => rfl
    | cons a l => rw [hl] at h1; simp at h1
  cases s with
  | mk data =>
    have hd : data = [] := h3
    rw [hd]

lemma mem_nodeNames {df : List Person} {r : Person} (hr : r ∈ df)
    (hn : pyStrip r.name ≠ "") : pyStrip r.name ∈ nodeNames df := by
  apply List.mem_filterMap.mpr
  refine ⟨r, hr, ?_⟩
  simp only [if_neg hn]

/-- C7 (amended): `generate_graph_html` does NOT reject self-referencing
parent edges — whenever a row's stripped `Parent` equals its own stripped,
nonempty `Name` (and its lower-casing is not the literal `"none"`), the
emitted `links` array contains an edge whose source equals its target.
The original claim (no emitted edge has source = target) is refuted by
`dfSelfParent`. -/
theorem c7_self_edge_emitted (df : List Person) (r : Person) (hr : r ∈ df)
    (hn : pyStrip r.name ≠ "") (hp : strOfOpt r.parent = pyStrip r.name)
    (hlow : pyLower (pyStrip r.name) ≠ ("none")) :
    EdgeT.mk (pyStrip r.name) (pyStrip r.name) ("parent") ∈ buildLinks df := by
  unfold buildLinks
  apply List.mem_filterMap.mpr
  refine ⟨r, hr, ?_⟩
  dsimp only
  rw [hp, if_pos]
  exact ⟨hn, hn, fun hor => hor.elim hlow (pyLower_ne_empty hn),
    mem_nodeNames hr hn, mem_nodeNames hr hn⟩

/-- C7 counterexample: for the single row `⟨A, parent A⟩` the emitted edge
list is exactly one edge with source `A` and target `A` — a
self-referencing edge is present, so the claim as stated is false. -/
theorem c7_counterexample :
    buildLinks dfSelfParent = [EdgeT.mk ("A") ("A") ("parent")] ∧
    (EdgeT.mk ("A") ("A") ("parent")).source =
      (EdgeT.mk ("A") ("A") ("parent")).target := by
  exact ⟨by decide, rfl⟩

/-- C7 witness: the amended theorem applied to `dfSelfParent`. -/
theorem c7_witness :
    EdgeT.mk ("A") ("A") ("parent") ∈ buildLinks dfSelfParent :=
  c7_self_edge_emitted dfSelfParent
    { name := ("A"), parent := some ("A") } (by decide) (by decide)
    (by decide) (by decide)

/-- C8: the three lifespan-parsing cases of the spec hold: `"1775-"`
yields birth 1775 and no death, `"1850-1914"` yields both years, and
`"?"` yields neither. -/
theorem c8_parse_lifespan_cases :
    parse_lifespan ("1775-") = (some 1775, none) ∧
    parse_lifespan ("1850-1914") = (some 1850, some 1914) ∧
    parse_lifespan ("?") = (none, none) := by
  refine ⟨by decide, by decide, by decide⟩

/-! ### Claim theorem C9 -/

lemma mem_dbbIssues {r : Person} {n : String} :
    (Issue.deathBeforeBirth n ∈ dbbIssues r ↔
      r.name = n ∧ ∃ b d, r.birth = some b ∧ r.death = some d ∧ d < b) ∧
    Issue.implausibleParentAge n ∉ dbbIssues r := by
  unfold dbbIssues
  rcases hb : r.birth with _ | b <;> rcases hd : r.death with _ | d <;>
    simp
  by_cases hlt : d < b <;> simp [hlt]
  exact eq_comm

lemma mem_ipaIssues {df : List Person} {r : Person} {n : String} :
    (Issue.implausibleParentAge n ∈ ipaIssues df r ↔
      r.name = n ∧ ∃ p b pr pb, r.parent = some p ∧ r.birth = some b ∧
        firstRowNamed df p = some pr ∧ pr.birth = some pb ∧
        b < pb + 15) ∧
    Issue.deathBeforeBirth n ∉ ipaIssues df r := by
  unfold ipaIssues
  rcases hp : r.parent with _ | p <;> rcases hb : r.birth with _ | b <;> simp
  rcases hf : firstRowNamed df p with _ | pr <;> simp
  rcases hpb : pr.birth with _ | pb <;> simp
  by_cases hlt : b < pb + 15 <;> simp [hlt]
  exact eq_comm

/-- C9: the validator (a total function — it always returns its list of
findings and never aborts) emits `DeathBeforeBirth` for name `n` exactly
when some row named `n` has both years present with death before birth,
and emits `ImplausibleParentAge` for `n` exactly when some row named `n`
has a parent reference and a birth year, the parent name matches a row
(the first such row, per `.iloc[0]`), that row has a birth year, and the
child's birth year is below the parent's birth year plus 15. -/
theorem c9_validate_dates_iff (df : List Person) (n : String) :
    (Issue.deathBeforeBirth n ∈ validate_dates df ↔
      ∃ r, r ∈ df ∧ r.name = n ∧
        ∃ b d, r.birth = some b ∧ r.death = some d ∧ d < b) ∧
    (Issue.implausibleParentAge n ∈ validate_dates df ↔
      ∃ r, r ∈ df ∧ r.name = n ∧
        ∃ p b pr pb, r.parent = some p ∧ r.birth = some b ∧
          firstRowNamed df p = some pr ∧ pr.birth = some pb ∧
          b < pb + 15) := by
  constructor
  · constructor
    · intro h
      obtain ⟨r, hr, hmem⟩ := List.mem_flatMap.mp h
      rcases List.mem_append.mp hmem with h1 | h1
      · obtain ⟨hn, hrest⟩ := mem_dbbIssues.1.mp h1
        exact ⟨r, hr, hn, hrest⟩
      · exact absurd h1 mem_ipaIssues.2
    · intro ⟨r, hr, hn, hrest⟩
      apply List.mem_flatMap.mpr
      refine ⟨r, hr, List.mem_append.mpr (Or.inl ?_)⟩
      exact mem_dbbIssues.1.mpr ⟨hn, hrest⟩
  · constructor
    · intro h
      obtain ⟨r, hr, hmem⟩ := List.mem_flatMap.mp h
      rcases List.mem_append.mp hmem with h1 | h1
      · exact absurd h1 mem_dbbIssues.2
      · obtain ⟨hn, hrest⟩ := mem_ipaIssues.1.mp h1
        exact ⟨r, hr, hn, hrest⟩
    · intro ⟨r, hr, hn, hrest⟩
      apply List.mem_flatMap.mpr
      refine ⟨r, hr, List.mem_append.mpr (Or.inr ?_)⟩
      exact mem_ipaIssues.1.mpr ⟨hn, hrest⟩

/-! ### Claim theorem C10 -/

/-- C10: in the hierarchical layout of `generate_graph_html` (numbers
modelled exactly, as rationals), any two nodes of the same generation
bucket get the same y coordinate (`startY + (gen - 1) * levelHeight`
depends only on the generation), and within one bucket two distinct
positions always get distinct x coordinates, because the per-bucket
spacing `dynamicWidth / (count + 1)` is strictly positive
(`dynamicWidth ≥ 1200`). -/
theorem c10_hierarchical_layout (df : List Person) (g : Int) :
    (∀ n1 n2, n1 ∈ genGroup df g → n2 ∈ genGroup df g →
      yPos n1.gen = yPos n2.gen) ∧
    (∀ i j, i < (genGroup df g).length → j < (genGroup df g).length →
      i ≠ j → xPos df g i ≠ xPos df g j) := by
  constructor
  · intro n1 n2 h1 h2
    have e1 : n1.gen = g := by
      have := (List.mem_filter.mp h1).2
      simpa using this
    have e2 : n2.gen = g := by
      have := (List.mem_filter.mp h2).2
      simpa using this
    rw [e1, e2]
  · intro i j hi hj hij hc
    have hw : (0 : ℚ) < dynamicWidth df := by
      have h1 : (1200 : ℚ) ≤ dynamicWidth df := le_max_left _ _
      linarith
    have hden : (0 : ℚ) < ((genGroup df g).length : ℚ) + 1 := by positivity
    have hs : (0 : ℚ) < dynamicWidth df / (((genGroup df g).length : ℚ) + 1) :=
      div_pos hw hden
    unfold xPos at hc
    have h2 := mul_left_cancel₀ (ne_of_gt hs) hc
    have h3 : (i : ℚ) = (j : ℚ) := by linarith
    exact hij (Nat.cast_injective h3)

/-- C10 witness: the layout theorem applied to two people of generation 1;
their bucket has two nodes and positions 0 and 1 receive distinct x. -/
theorem c10_witness :
    1 < (genGroup dfTwoGenOne 1).length ∧
    xPos dfTwoGenOne 1 0 ≠ xPos dfTwoGenOne 1 1 :=
  ⟨by decide,
   (c10_hierarchical_layout dfTwoGenOne 1).2 0 1 (by decide) (by decide)
     (by decide)⟩
